import Mathlib

/-!
Verification of the text-preserving patch engine of `alt-text-llm`.

The Python sources (`alt_text_llm/apply.py`, `alt_text_llm/scan.py`) are
shallowly embedded below.  Strings are modelled as `List Char` (Python `str`
is a sequence of unicode code points) and the regular-expression based
matchers of `apply.py` are translated into explicit deterministic scanners
that realise the same leftmost-match semantics as Python's `re.search` /
`re.sub(..., count=1)` on the patterns in question (all of which are
backtracking-free once the literal asset path is fixed, because the
character classes `[^\]]*` and `[^"]*` cannot cross their closing
delimiter).  Matchers are split into small stages so that each stage has
usable equation lemmas; the staging follows the left-to-right structure of
the corresponding regular expression.
-/

namespace AltTextLlm

/-- Characters matched by Python's `\s` in unicode mode (the whitespace set
of `str.strip` / `str.rstrip` as well).  The ASCII core plus the common
unicode whitespace code points. -/
def isPySpace (c : Char) : Bool :=
  c = ' ' || c = '\t' || c = '\n' || c = '\r' || c = '\x0b' || c = '\x0c' ||
  c = '\x1c' || c = '\x1d' || c = '\x1e' || c = '\x1f' || c = '\x85' ||
  c = '\xa0' || c = '\u1680' || ('\u2000' ≤ c && c ≤ '\u200a') ||
  c = '\u2028' || c = '\u2029' || c = '\u202f' || c = '\u205f' || c = '\u3000'

/-- Line terminators recognised by Python's `str.splitlines`. -/
def isPyLineBreak (c : Char) : Bool :=
  c = '\n' || c = '\r' || c = '\x0b' || c = '\x0c' ||
  c = '\x1c' || c = '\x1d' || c = '\x1e' || c = '\x85' ||
  c = '\u2028' || c = '\u2029'

/-- ASCII lower-casing, modelling the case folding relevant to the ASCII
attribute names and asset paths handled by `apply.py`. -/
def toLowerAscii (c : Char) : Char :=
  if 'A' ≤ c && c ≤ 'Z' then Char.ofNat (c.toNat + 32) else c

/-- Case-insensitive character comparison (ASCII). -/
def ciEq (a b : Char) : Bool := toLowerAscii a = toLowerAscii b

/-- Case-insensitive `isPrefixOf` (ASCII), for the `re.IGNORECASE` matches
of `_apply_html_image_alt`. -/
def ciPrefixOf : List Char → List Char → Bool
  | [], _ => true
  | _ :: _, [] => false
  | a :: as, b :: bs => ciEq a b && ciPrefixOf as bs

/-- Case-insensitive substring test (ASCII). -/
def ciSubstr (pat : List Char) : List Char → Bool
  | [] => ciPrefixOf pat []
  | c :: cs => ciPrefixOf pat (c :: cs) || ciSubstr pat cs

/-- Python `str.strip()` restricted to the whitespace set `isPySpace`. -/
def pyStrip (s : List Char) : List Char :=
  ((s.dropWhile isPySpace).reverse.dropWhile isPySpace).reverse

/-- Python `str.rstrip()`. -/
def pyRstrip (s : List Char) : List Char :=
  (s.reverse.dropWhile isPySpace).reverse

/-- Worker for `pyReplace`, structurally recursive on an explicit fuel so
that concrete evaluations reduce definitionally.  With `fuel ≥ s.length`
and a non-empty needle it computes Python's `str.replace` (all
non-overlapping occurrences, scanning left to right). -/
def pyReplaceFuel (old new : List Char) : Nat → List Char → List Char
  | 0, s => s
  | _ + 1, [] => []
  | fuel + 1, c :: cs =>
    if old ≠ [] && old.isPrefixOf (c :: cs) then
      new ++ pyReplaceFuel old new fuel ((c :: cs).drop old.length)
    else
      c :: pyReplaceFuel old new fuel cs

/-- Python `s.replace(old, new)`: every occurrence is replaced; an empty
needle inserts `new` around every character. -/
def pyReplace (s old new : List Char) : List Char :=
  if old = [] then new ++ s.flatMap (fun c => c :: new)
  else pyReplaceFuel old new s.length s

/-- Worker for `pySplitlines`: `acc` holds the current line reversed, and
`afterCR` records whether the previous character was a `\r` (so that a
following `\n` belongs to the same `\r\n` terminator). -/
def splitLinesAux : List Char → List Char → Bool → List (List Char)
  | [], acc, _ => if acc = [] then [] else [acc.reverse]
  | c :: rest, acc, afterCR =>
    if afterCR ∧ c = '\n' then splitLinesAux rest acc false
    else if c = '\r' then acc.reverse :: splitLinesAux rest [] true
    else if isPyLineBreak c then acc.reverse :: splitLinesAux rest [] false
    else splitLinesAux rest (c :: acc) false

/-- Python `str.splitlines()`: splits on `\n`, `\r\n`, `\r` and the other
terminators of `isPyLineBreak`; a terminator at end of string does not
produce a final empty line. -/
def pySplitlines (s : List Char) : List (List Char) :=
  splitLinesAux s [] false

/-- Python `"\n".join(lines)`. -/
def joinNl : List (List Char) → List Char
  | [] => []
  | [l] => l
  | l :: ls => l ++ '\n' :: joinNl ls

/-- Python `s.endswith("\n")`. -/
def endsNl (s : List Char) : Bool := s.getLast? = some '\n'

/-! ## `_apply_markdown_image_alt` (apply.py lines 14-42)

The pattern is `!\[([^\]]*)\]\({escaped_path}\s*\)`.  Because `[^\]]*`
cannot cross a `]` and the asset path is matched literally, a match attempt
at a fixed start position is deterministic, and `re.search` tries start
positions from the left.  `re.sub(..., count := 1)` rewrites the same
leftmost match with `f"![{new_alt}]({asset_path})"` (the lambda replacement
inserts `new_alt` verbatim, with no escaping and no newline handling). -/

/-- Closing stage of `mdMatchAt`: the argument is the remainder after the
`\s*` run; it must start with `)`. -/
def mdClose (alt sp : List Char) : List Char → Option (List Char × List Char × List Char)
  | c :: tail => if c = ')' then some (alt, sp, tail) else none
  | [] => none

/-- Stage of `mdMatchAt` after the literal `path`: match `\s*\)`. -/
def mdAfterPath (alt rest3 : List Char) : Option (List Char × List Char × List Char) :=
  mdClose alt (rest3.takeWhile isPySpace) (rest3.dropWhile isPySpace)

/-- Stage of `mdMatchAt` after the alt run: match `\]\({path}`, then the
closing stage. -/
def mdAfterAlt (path alt : List Char) : List Char → Option (List Char × List Char × List Char)
  | c1 :: c2 :: rest2 =>
    if c1 = ']' ∧ c2 = '(' then
      if path.isPrefixOf rest2 then mdAfterPath alt (rest2.drop path.length)
      else none
    else none
  | _ => none

/-- One match attempt of the markdown-image pattern at the current
position: `!\[`, then the greedy `[^\]]*` run, then the later stages.
Returns `(alt, whitespace run before the closing paren, rest)`. -/
def mdMatchAt (path : List Char) : List Char → Option (List Char × List Char × List Char)
  | c1 :: c2 :: rest =>
    if c1 = '!' ∧ c2 = '[' then
      mdAfterAlt path (rest.takeWhile (fun c => c ≠ ']'))
        (rest.dropWhile (fun c => c ≠ ']'))
    else none
  | _ => none

/-- Leftmost match of the markdown-image pattern: returns
`(prefix before the match, alt, whitespace run, rest after)`. -/
def mdFind (path : List Char) : List Char → Option (List Char × List Char × List Char × List Char)
  | [] => none
  | c :: cs =>
    (mdMatchAt path (c :: cs)).elim
      ((mdFind path cs).map fun r => (c :: r.1, r.2.1, r.2.2.1, r.2.2.2))
      (fun r => some ([], r.1, r.2.1, r.2.2))

/-- Rewriting step of `_apply_markdown_image_alt`, parameterised by the
search result. -/
def applyMdWith (line path newAlt : List Char) :
    Option (List Char × List Char × List Char × List Char) → List Char × Option (List Char)
  | none => (line, none)
  | some (pre, alt, _sp, tail) =>
    (pre ++ '!' :: '[' :: (newAlt ++ ']' :: '(' :: (path ++ ')' :: tail)),
     if alt = [] then none else some alt)

/-- `_apply_markdown_image_alt`: rewrite the leftmost `![alt](path)` on the
line to `![new_alt](path)`; the previous alt is reported as `none` when it
was the empty string (Python truthiness of `match.group(1)`). -/
def applyMarkdownImageAlt (line path newAlt : List Char) : List Char × Option (List Char) :=
  applyMdWith line path newAlt (mdFind path line)

/-! ## `_apply_wikilink_image_alt` (apply.py lines 107-135)

Pattern `!\[\[{escaped_path}(?:\|([^\]]*))?\]\]`; the optional group is
tried first (greedy), and `[^\]]*` cannot cross a `]`, so a match attempt
at a fixed position is again deterministic. -/

/-- Stage of `wikiMatchAt`: match the closing `\]\]` after the alt group. -/
def wikiAfterAlt (alt : List Char) : List Char → Option (Option (List Char) × List Char)
  | c1 :: c2 :: tail =>
    if c1 = ']' ∧ c2 = ']' then some (some alt, tail) else none
  | _ => none

/-- Stage of `wikiMatchAt`: the `\]\]` ending with no alt group. -/
def wikiCloseBare : List Char → Option (Option (List Char) × List Char)
  | c1 :: c2 :: tail =>
    if c1 = ']' ∧ c2 = ']' then some (none, tail) else none
  | _ => none

/-- Stage of `wikiMatchAt` after the literal `path`: the optional greedy
`(?:\|([^\]]*))?` group is tried first, then the bare `\]\]` ending. -/
def wikiAfterPath : List Char → Option (Option (List Char) × List Char)
  | c :: rest2 =>
    if c = '|' then
      wikiAfterAlt (rest2.takeWhile (fun c => c ≠ ']'))
        (rest2.dropWhile (fun c => c ≠ ']'))
    else wikiCloseBare (c :: rest2)
  | [] => none

/-- One match attempt of the wikilink pattern at the current position.
Returns `(optional alt group, rest after the match)`. -/
def wikiMatchAt (path : List Char) : List Char → Option (Option (List Char) × List Char)
  | c1 :: c2 :: c3 :: rest =>
    if c1 = '!' ∧ c2 = '[' ∧ c3 = '[' then
      if path.isPrefixOf rest then wikiAfterPath (rest.drop path.length)
      else none
    else none
  | _ => none

/-- Leftmost match of the wikilink pattern. -/
def wikiFind (path : List Char) : List Char → Option (List Char × Option (List Char) × List Char)
  | [] => none
  | c :: cs =>
    (wikiMatchAt path (c :: cs)).elim
      ((wikiFind path cs).map fun r => (c :: r.1, r.2.1, r.2.2))
      (fun r => some ([], r.1, r.2))

/-- Rewriting step of `_apply_wikilink_image_alt`, parameterised by the
search result. -/
def applyWikiWith (line path newAlt : List Char) :
    Option (List Char × Option (List Char) × List Char) → List Char × Option (List Char)
  | none => (line, none)
  | some (pre, alt, tail) =>
    (pre ++ '!' :: '[' :: '[' :: (path ++ '|' :: (newAlt ++ ']' :: ']' :: tail)),
     match alt with
     | none => none
     | some a => if a = [] then none else some a)

/-- `_apply_wikilink_image_alt`: rewrite the leftmost `![[path]]` or
`![[path|alt]]` to `![[path|new_alt]]`; an absent or empty alt group is
reported as `none`. -/
def applyWikilinkImageAlt (line path newAlt : List Char) : List Char × Option (List Char) :=
  applyWikiWith line path newAlt (wikiFind path line)

/-! ## `_apply_html_image_alt` (apply.py lines 45-104)

Pattern `<img\s+([^>]*src="{escaped_path}"[^/>]*?)(\s*)(/?)>` with
`re.IGNORECASE | re.DOTALL`.  None of `\s`, `[^>]`, `[^/>]`, `/?` can match
`>`, so the closing `>` of a match starting at a given `<img` is the first
`>` after `<img\s+`; `src` cannot begin with a whitespace character, so the
greedy `\s+` always takes the maximal whitespace run; the greedy `[^>]*`
makes the engine try the occurrences of `src="path"` inside the tag body
from the last one backwards, and for a fixed occurrence the lazy `[^/>]*?`
makes group 2 the maximal whitespace suffix (before an optional final `/`)
of the remaining body, provided that remainder contains no `/`. -/

/-- The literal `src="{path}"` needle of the img / src patterns. -/
def srcNeedle (path : List Char) : List Char :=
  's' :: 'r' :: 'c' :: '=' :: '"' :: (path ++ ['"'])

/-- Case-insensitive occurrence positions of `pat` in `s` (ascending),
starting index `i`. -/
def ciOccsAux (pat : List Char) : List Char → Nat → List Nat
  | [], _ => []
  | c :: cs, i =>
    if ciPrefixOf pat (c :: cs) then i :: ciOccsAux pat cs (i + 1)
    else ciOccsAux pat cs (i + 1)

/-- All case-insensitive occurrences of `pat` in `s`. -/
def ciOccs (pat s : List Char) : List Nat := ciOccsAux pat s 0

/-- Split the tag-body remainder after `src="path"` into the lazy
`[^/>]*?` part, the `(\s*)` group and the `(/?)` group; fails when a `/`
would have to be matched by `[^/>]*?`. -/
def splitTagTail (after : List Char) : Option (List Char × List Char × List Char) :=
  let slash := after.getLast? = some '/'
  let base := if slash then after.dropLast else after
  let b := (base.reverse.takeWhile isPySpace).reverse
  let a := base.take (base.length - b.length)
  if a.contains '/' then none
  else some (a, b, if slash then ['/'] else [])

/-- Try the `src="path"` occurrences inside the tag body from the last one
backwards (the argument is the reversed occurrence list); on success
returns `(group1, group2, group3)` of the img pattern. -/
def tryImgOccs (body srcPat : List Char) : List Nat → Option (List Char × List Char × List Char)
  | [] => none
  | k :: ks =>
    (splitTagTail (body.drop (k + srcPat.length))).elim
      (tryImgOccs body srcPat ks)
      (fun r => some (body.take (k + srcPat.length) ++ r.1, r.2.1, r.2.2))

/-- Stage of `imgMatchAt` once the position of the first `>` is known. -/
def imgAtG (path afterImg ws : List Char) : Option Nat → Option (List Char × List Char × List Char)
  | none => none
  | some g =>
    if g < ws.length then none
    else
      tryImgOccs ((afterImg.take g).drop ws.length) (srcNeedle path)
        (ciOccs (srcNeedle path) ((afterImg.take g).drop ws.length)).reverse

/-- One match attempt of the img pattern at the current position; returns
the three capture groups. -/
def imgMatchAt (path s : List Char) : Option (List Char × List Char × List Char) :=
  if ciPrefixOf ['<', 'i', 'm', 'g'] s then
    let afterImg := s.drop 4
    let ws := afterImg.takeWhile isPySpace
    if ws = [] then none
    else imgAtG path afterImg ws (afterImg.findIdx? (fun c => c = '>'))
  else none

/-- Leftmost match of the img pattern on the line (only the capture groups
are used by the rewriter, via `str.replace`). -/
def imgFind (path : List Char) : List Char → Option (List Char × List Char × List Char)
  | [] => none
  | c :: cs => (imgMatchAt path (c :: cs)).elim (imgFind path cs) some

/-- Leftmost case-insensitive occurrence of `pat`: returns
`(before, matched text, after)`; the matched text keeps the original
casing of the subject. -/
def ciFindPat (pat : List Char) : List Char → Option (List Char × List Char × List Char)
  | [] => if pat = [] then some ([], [], []) else none
  | c :: cs =>
    if ciPrefixOf pat (c :: cs) then
      some ([], (c :: cs).take pat.length, (c :: cs).drop pat.length)
    else
      (ciFindPat pat cs).map fun r => (c :: r.1, r.2.1, r.2.2)

/-- Closing stage of `altMatchAt`: the remainder after the `[^"]*` run must
start with `"`. -/
def altClose (v : List Char) : List Char → Option (List Char × List Char)
  | c :: after => if c = '"' then some (v, after) else none
  | [] => none

/-- One match attempt of `alt="([^"]*)"` (case-insensitive) at the current
position: returns `(value, rest)`. -/
def altMatchAt (s : List Char) : Option (List Char × List Char) :=
  if ciPrefixOf ['a', 'l', 't', '=', '"'] s then
    altClose ((s.drop 5).takeWhile (fun c => c ≠ '"'))
      ((s.drop 5).dropWhile (fun c => c ≠ '"'))
  else none

/-- Leftmost match of `alt="([^"]*)"`: `(before, value, after)`. -/
def altFind : List Char → Option (List Char × List Char × List Char)
  | [] => none
  | c :: cs =>
    (altMatchAt (c :: cs)).elim
      ((altFind cs).map fun r => (c :: r.1, r.2.1, r.2.2))
      (fun r => some ([], r.1, r.2))

/-- The rewritten tag text: `f"<img {attrs}{ws}{slash}>"`. -/
def htmlTag (attrs ws2 slash : List Char) : List Char :=
  '<' :: 'i' :: 'm' :: 'g' :: ' ' :: (attrs ++ ws2 ++ slash ++ ['>'])

/-- Attribute rewriting of `_apply_html_image_alt`: replace the value of an
existing `alt` attribute, or insert `alt="new_alt" ` before `src="path"`
(keeping the matched `src` text's original casing); returns the new
attribute string and the old alt value (an existing empty `alt=""` is
reported as the empty string, not `None`). -/
def htmlRewriteAttrs (path newAlt imgAttrs : List Char) : List Char × Option (List Char) :=
  let altPrefix : List Char := 'a' :: 'l' :: 't' :: '=' :: '"' :: []
  match altFind imgAttrs with
  | some (pre, oldAlt, after) =>
    (pre ++ altPrefix ++ newAlt ++ '"' :: after, some oldAlt)
  | none =>
    match ciFindPat (srcNeedle path) imgAttrs with
    | none => (imgAttrs, none)
    | some (pre, matched, after) =>
      (pre ++ altPrefix ++ newAlt ++ '"' :: ' ' :: (matched ++ after), none)

/-- Rewriting step of `_apply_html_image_alt`, parameterised by the search
result: rebuild the old and new tag texts and substitute with
`str.replace`. -/
def applyHtmlWith (line path newAlt : List Char) :
    Option (List Char × List Char × List Char) → List Char × Option (List Char)
  | none => (line, none)
  | some (g1, ws2, slash) =>
    let imgAttrs := pyRstrip g1
    let r := htmlRewriteAttrs path newAlt imgAttrs
    (pyReplace line (htmlTag imgAttrs ws2 slash) (htmlTag r.1 ws2 slash), r.2)

/-- `_apply_html_image_alt`: replace the value of an existing `alt`
attribute, or insert `alt="new_alt"` immediately before the `src`
attribute; the new alt text is inserted verbatim (no HTML entity escaping,
no newline handling, and no normalisation of a bare `>` ending to `/>`). -/
def applyHtmlImageAlt (line path newAlt : List Char) : List Char × Option (List Char) :=
  applyHtmlWith line path newAlt (imgFind path line)

/-! ## Scanner-side meaningfulness judgment (scan.py lines 50-90) -/

/-- `_PLACEHOLDER_ALTS` (scan.py lines 50-57). -/
def placeholderAlts : List (List Char) :=
  ["img".data, "image".data, "photo".data, "placeholder".data,
   "screenshot".data, "picture".data]

/-- `_is_alt_meaningful` (scan.py lines 86-90): `None` or blank alt is not
meaningful, nor is a placeholder word (after strip and lower-casing). -/
def isAltMeaningful : Option (List Char) → Bool
  | none => false
  | some alt =>
    let altStripped := (pyStrip alt).map toLowerAscii
    altStripped ≠ [] && !(placeholderAlts.contains altStripped)

/-- Modelled from the spec and `_handle_md_asset` (scan.py lines 193-217):
the scanner emits a deficiency record for a markdown image construct iff
its `src` is non-empty and its alt text (`None` when empty, per
`token.content or None`) is not meaningful.  The markdown-it image
tokenization, an external library, is specialised here to the leftmost
`![alt](path)` construct of a single line. -/
def scanLineMarkdownImageDeficient (line path : List Char) : Bool :=
  (mdFind path line).elim false fun r =>
    path ≠ [] && !(isAltMeaningful (if r.2.1 = [] then none else some r.2.1))

/-! ## `_apply_caption_to_file` (apply.py lines 151-222), modelled on the
file's content (the file system read/write is replaced by explicit content
passing).  The three recognizers are tried in the fixed order markdown →
wikilink → HTML, each "fall-through" being decided by string equality with
the original line, exactly as in the source. -/

/-- The recognizer cascade of `_apply_caption_to_file` on one line. -/
def tryFormatsStaged (line path newAlt : List Char) : List Char × Option (List Char) :=
  let r1 := applyMarkdownImageAlt line path newAlt
  if r1.1 ≠ line then r1
  else
    let r2 := applyWikilinkImageAlt line path newAlt
    if r2.1 ≠ line then r2
    else
      let r3 := applyHtmlImageAlt line path newAlt
      if r3.1 ≠ line then r3 else (line, r3.2)

/-- `_apply_caption_to_file` on the file content: `none` models the
warn-and-return-`None` paths (line out of range, or no recognizer changed
the line); on success returns the rewritten content and the old alt.  The
content is split with `splitlines`, the target line replaced, the lines
joined with `"\n"`, and a final newline appended iff the original content
ended with `"\n"`. -/
def applyCaptionContent (source path newAlt : List Char) (targetLine : Int) :
    Option (List Char × Option (List Char)) :=
  let lines := pySplitlines source
  if targetLine < 1 ∨ targetLine > (lines.length : Int) then none
  else
    let idx := (targetLine - 1).toNat
    let originalLine := lines.getD idx []
    let r := tryFormatsStaged originalLine path newAlt
    if r.1 = originalLine then none
    else
      some (joinNl (lines.set idx r.1) ++ (if endsNl source then ['\n'] else []), r.2)

/-! ## `apply_captions` (apply.py lines 225-328), specialised to the
records of a single markdown file. -/

/-- The caption records reaching the per-file loop of `apply_captions`
(after the `final_alt` filter and the `int(...)` conversion). -/
structure CaptionTask where
  assetPath : List Char
  finalAlt : List Char
  lineNumber : Int
deriving DecidableEq

/-- `sorted(items, key=lambda x: x.line_number, reverse=True)`: Python's
sort is stable, and `insertionSort` with this relation inserts an earlier
element before all later elements of equal key, which is exactly stable
descending order. -/
def sortDescending (tasks : List CaptionTask) : List CaptionTask :=
  List.insertionSort (fun a b => b.lineNumber ≤ a.lineNumber) tasks

/-- The per-file loop body of `apply_captions`: each record is applied to
the current content; a failed record leaves the content unchanged and the
loop continues; the second component counts successful applications. -/
def runTasks : List Char → List CaptionTask → List Char × Nat
  | content, [] => (content, 0)
  | content, t :: ts =>
    (applyCaptionContent content t.assetPath t.finalAlt t.lineNumber).elim
      (runTasks content ts)
      (fun r => ((runTasks r.1 ts).1, (runTasks r.1 ts).2 + 1))

/-- `apply_captions` for one file: sort descending by line number, then
run the loop. -/
def applyBatch (source : List Char) (tasks : List CaptionTask) : List Char × Nat :=
  runTasks source (sortDescending tasks)

/-- `utils.AltGenerationResult` as read from the captions JSON.  Modelled
from the spec: `utils.py` is not among the sources; the field list and the
nullability of `line_number` and `final_alt` are those documented in §3
and §6 of the spec and used by `apply.py`. -/
structure RawCaption where
  markdownFile : List Char
  assetPath : List Char
  suggestedAlt : List Char
  modelName : List Char
  contextSnippet : List Char
  lineNumber : Option Int
  finalAlt : Option (List Char)
deriving DecidableEq

/-- Python truthiness of an optional string. -/
def pyTruthy : Option (List Char) → Bool
  | none => false
  | some s => s ≠ []

/-- The filter `if item.get("final_alt") and item.get("final_alt").strip()`
of `apply_captions` (apply.py line 250). -/
def usableCaption (item : RawCaption) : Bool :=
  pyTruthy item.finalAlt &&
    (match item.finalAlt with
     | none => false
     | some s => pyStrip s ≠ [])

/-- Python `int(x)` on an int-or-`None` value: `int(None)` raises
`TypeError`, which aborts `apply_captions` (apply.py line 258). -/
def pyIntOfNumber : Option Int → Except String Int
  | some n => .ok n
  | none => .error "TypeError: int() argument must not be None"

/-- The record-selection loop of `apply_captions` (apply.py lines
249-268): usable records are converted (with `int(item["line_number"])`),
unusable ones are skipped. -/
def selectCaptions : List RawCaption → Except String (List CaptionTask)
  | [] => .ok []
  | item :: rest =>
    if usableCaption item then
      match pyIntOfNumber item.lineNumber with
      | .error e => .error e
      | .ok n =>
        (selectCaptions rest).map
          fun l => ⟨item.assetPath, item.finalAlt.getD [], n⟩ :: l
    else selectCaptions rest

/-- `apply_captions` end to end for a single file's records: select and
convert the records, then apply them to the file content. -/
def applyCaptionsFromRaw (source : List Char) (items : List RawCaption) :
    Except String (List Char × Nat) :=
  (selectCaptions items).map fun tasks => applyBatch source tasks

/-! ## Helper lemmas -/

theorem takeWhile_ne_append (x : Char) (a r : List Char) (h : x ∉ a) :
    (a ++ x :: r).takeWhile (fun c => c ≠ x) = a := by
  induction a with
  | nil => simp
  | cons c cs ih =>
    simp only [List.mem_cons, not_or] at h
    have ihh := ih h.2
    have hc : c ≠ x := Ne.symm h.1
    simp only [ne_eq, decide_not] at ihh ⊢
    simp [List.takeWhile_cons, hc, ihh]

theorem dropWhile_ne_append (x : Char) (a r : List Char) (h : x ∉ a) :
    (a ++ x :: r).dropWhile (fun c => c ≠ x) = x :: r := by
  induction a with
  | nil => simp
  | cons c cs ih =>
    simp only [List.mem_cons, not_or] at h
    have ihh := ih h.2
    have hc : c ≠ x := Ne.symm h.1
    simp only [ne_eq, decide_not] at ihh ⊢
    simp [List.dropWhile_cons, hc, ihh]

theorem mdMatchAt_construct (a path rest : List Char) (ha : ']' ∉ a) :
    mdMatchAt path ('!' :: '[' :: (a ++ ']' :: '(' :: (path ++ ')' :: rest))) =
      some (a, [], rest) := by
  have hp : path.isPrefixOf (path ++ ')' :: rest) = true := by
    rw [List.isPrefixOf_iff_prefix]; exact List.prefix_append _ _
  have hsp : isPySpace ')' = false := rfl
  have ht : List.takeWhile isPySpace (')' :: rest) = [] := by
    simp [List.takeWhile_cons, hsp]
  have hd : List.dropWhile isPySpace (')' :: rest) = ')' :: rest := by
    simp [List.dropWhile_cons, hsp]
  simp only [mdMatchAt, if_pos (⟨rfl, rfl⟩ : '!' = '!' ∧ '[' = '['),
    takeWhile_ne_append _ _ _ ha, dropWhile_ne_append _ _ _ ha,
    mdAfterAlt, if_pos (⟨rfl, rfl⟩ : ']' = ']' ∧ '(' = '('), hp, if_pos,
    List.drop_left, mdAfterPath, ht, hd, mdClose, if_pos rfl]
  simp

theorem mdClose_some {alt sp s r q tail : List Char}
    (h : mdClose alt sp s = some (r, q, tail)) :
    r = alt ∧ q = sp ∧ s = ')' :: tail := by
  match s with
  | [] => exact absurd h (by simp [mdClose])
  | c :: rest =>
    simp only [mdClose] at h
    by_cases hc : c = ')'
    · subst hc
      rw [if_pos rfl] at h
      simp only [Option.some.injEq, Prod.mk.injEq] at h
      exact ⟨h.1.symm, h.2.1.symm, by rw [h.2.2]⟩
    · rw [if_neg hc] at h; exact absurd h (by simp)

theorem mdAfterPath_some {alt rest3 r sp tail : List Char}
    (h : mdAfterPath alt rest3 = some (r, sp, tail)) :
    r = alt ∧ rest3 = sp ++ ')' :: tail ∧ (∀ c ∈ sp, isPySpace c = true) := by
  unfold mdAfterPath at h
  obtain ⟨h1, h2, h3⟩ := mdClose_some h
  refine ⟨h1, ?_, ?_⟩
  · rw [h2, ← h3, List.takeWhile_append_dropWhile]
  · intro c hc
    rw [h2] at hc
    exact List.mem_takeWhile_imp hc

theorem mdAfterAlt_some {path alt s r sp tail : List Char}
    (h : mdAfterAlt path alt s = some (r, sp, tail)) :
    r = alt ∧ s = ']' :: '(' :: (path ++ sp ++ ')' :: tail) := by
  match s with
  | [] => exact absurd h (by simp [mdAfterAlt])
  | [c] => exact absurd h (by simp [mdAfterAlt])
  | c1 :: c2 :: rest2 =>
    simp only [mdAfterAlt] at h
    by_cases hb : c1 = ']' ∧ c2 = '('
    · obtain ⟨hb1, hb2⟩ := hb; subst hb1; subst hb2
      rw [if_pos ⟨rfl, rfl⟩] at h
      by_cases hp : path.isPrefixOf rest2 = true
      · rw [if_pos hp] at h
        obtain ⟨h1, h2, _⟩ := mdAfterPath_some h
        rw [List.isPrefixOf_iff_prefix] at hp
        obtain ⟨t, ht⟩ := hp
        subst ht
        rw [List.drop_left] at h2
        refine ⟨h1, ?_⟩
        rw [h2, List.append_assoc]
      · rw [if_neg hp] at h; exact absurd h (by simp)
    · rw [if_neg hb] at h; exact absurd h (by simp)

theorem mdMatchAt_some {path s alt sp tail : List Char}
    (h : mdMatchAt path s = some (alt, sp, tail)) :
    s = '!' :: '[' :: (alt ++ ']' :: '(' :: (path ++ sp ++ ')' :: tail)) ∧
      ']' ∉ alt := by
  match s with
  | [] => exact absurd h (by simp [mdMatchAt])
  | [c] => exact absurd h (by simp [mdMatchAt])
  | c1 :: c2 :: rest =>
    simp only [mdMatchAt] at h
    by_cases hb : c1 = '!' ∧ c2 = '['
    · obtain ⟨hb1, hb2⟩ := hb; subst hb1; subst hb2
      rw [if_pos ⟨rfl, rfl⟩] at h
      obtain ⟨h1, h2⟩ := mdAfterAlt_some h
      constructor
      · have hsplit : rest = alt ++ ']' :: '(' :: (path ++ sp ++ ')' :: tail) := by
          conv_lhs =>
            rw [← List.takeWhile_append_dropWhile
              (p := fun c => decide (c ≠ ']')) (l := rest)]
          rw [h2, h1]
        rw [hsplit]
      · intro hmem
        rw [h1] at hmem
        have := List.mem_takeWhile_imp hmem
        simp at this
    · rw [if_neg hb] at h; exact absurd h (by simp)

theorem mdFind_cons_of_matchAt {path : List Char} {c : Char} {cs : List Char}
    {r : List Char × List Char × List Char}
    (h : mdMatchAt path (c :: cs) = some r) :
    mdFind path (c :: cs) = some ([], r.1, r.2.1, r.2.2) := by
  simp [mdFind, h]

theorem mdFind_some {path line pre alt sp tail : List Char}
    (h : mdFind path line = some (pre, alt, sp, tail)) :
    line = pre ++ '!' :: '[' :: (alt ++ ']' :: '(' :: (path ++ sp ++ ')' :: tail)) := by
  induction line generalizing pre with
  | nil => exact absurd h (by simp [mdFind])
  | cons c cs ih =>
    rw [mdFind] at h
    cases hm : mdMatchAt path (c :: cs) with
    | some r =>
      obtain ⟨a', s', t'⟩ := r
      rw [hm] at h
      simp only [Option.elim_some, Option.some.injEq, Prod.mk.injEq] at h
      obtain ⟨hpre, halt, hsp, htail⟩ := h
      subst hpre; subst halt; subst hsp; subst htail
      simpa using (mdMatchAt_some hm).1
    | none =>
      rw [hm] at h
      simp only [Option.elim_none, Option.map_eq_some'] at h
      obtain ⟨⟨p', a', s', t'⟩, hr', heq⟩ := h
      simp only [Prod.mk.injEq] at heq
      obtain ⟨hpre, halt, hsp, htail⟩ := heq
      subst hpre; subst halt; subst hsp; subst htail
      rw [List.cons_append, ← ih hr']


theorem wikiAfterAlt_some {alt s : List Char} {r : Option (List Char)} {tail : List Char}
    (h : wikiAfterAlt alt s = some (r, tail)) :
    r = some alt ∧ s = ']' :: ']' :: tail := by
  match s with
  | [] => exact absurd h (by simp [wikiAfterAlt])
  | [c] => exact absurd h (by simp [wikiAfterAlt])
  | c1 :: c2 :: rest =>
    simp only [wikiAfterAlt] at h
    by_cases hb : c1 = ']' ∧ c2 = ']'
    · obtain ⟨hb1, hb2⟩ := hb; subst hb1; subst hb2
      rw [if_pos ⟨rfl, rfl⟩] at h
      simp only [Option.some.injEq, Prod.mk.injEq] at h
      exact ⟨h.1.symm, by rw [h.2]⟩
    · rw [if_neg hb] at h; exact absurd h (by simp)

theorem wikiCloseBare_some {s : List Char} {r : Option (List Char)} {tail : List Char}
    (h : wikiCloseBare s = some (r, tail)) :
    r = none ∧ s = ']' :: ']' :: tail := by
  match s with
  | [] => exact absurd h (by simp [wikiCloseBare])
  | [c] => exact absurd h (by simp [wikiCloseBare])
  | c1 :: c2 :: rest =>
    simp only [wikiCloseBare] at h
    by_cases hb : c1 = ']' ∧ c2 = ']'
    · obtain ⟨hb1, hb2⟩ := hb; subst hb1; subst hb2
      rw [if_pos ⟨rfl, rfl⟩] at h
      simp only [Option.some.injEq, Prod.mk.injEq] at h
      exact ⟨h.1.symm, by rw [h.2]⟩
    · rw [if_neg hb] at h; exact absurd h (by simp)

theorem wikiAfterPath_some {s : List Char} {r : Option (List Char)} {tail : List Char}
    (h : wikiAfterPath s = some (r, tail)) :
    ∃ mid, s = mid ++ ']' :: ']' :: tail := by
  match s with
  | [] => exact absurd h (by simp [wikiAfterPath])
  | c :: rest2 =>
    simp only [wikiAfterPath] at h
    by_cases hc : c = '|'
    · rw [if_pos hc] at h
      obtain ⟨_, h2⟩ := wikiAfterAlt_some h
      refine ⟨c :: rest2.takeWhile (fun c => c ≠ ']'), ?_⟩
      rw [List.cons_append]
      congr 1
      conv_lhs =>
        rw [← List.takeWhile_append_dropWhile
          (p := fun c => decide (c ≠ ']')) (l := rest2)]
      rw [h2]
    · rw [if_neg hc] at h
      obtain ⟨_, h2⟩ := wikiCloseBare_some h
      exact ⟨[], by simpa using h2⟩

theorem wikiMatchAt_some {path s : List Char} {r : Option (List Char)} {tail : List Char}
    (h : wikiMatchAt path s = some (r, tail)) :
    ∃ mid, s = '!' :: '[' :: '[' :: (path ++ (mid ++ ']' :: ']' :: tail)) := by
  match s with
  | [] => exact absurd h (by simp [wikiMatchAt])
  | [c] => exact absurd h (by simp [wikiMatchAt])
  | [c1, c2] => exact absurd h (by simp [wikiMatchAt])
  | c1 :: c2 :: c3 :: rest =>
    simp only [wikiMatchAt] at h
    by_cases hb : c1 = '!' ∧ c2 = '[' ∧ c3 = '['
    · obtain ⟨hb1, hb2, hb3⟩ := hb; subst hb1; subst hb2; subst hb3
      rw [if_pos ⟨rfl, rfl, rfl⟩] at h
      by_cases hp : path.isPrefixOf rest = true
      · rw [if_pos hp] at h
        rw [List.isPrefixOf_iff_prefix] at hp
        obtain ⟨t, ht⟩ := hp
        subst ht
        rw [List.drop_left] at h
        obtain ⟨mid, hmid⟩ := wikiAfterPath_some h
        exact ⟨mid, by rw [hmid]⟩
      · rw [if_neg hp] at h; exact absurd h (by simp)
    · rw [if_neg hb] at h; exact absurd h (by simp)

theorem wikiFind_some {path line pre : List Char} {og : Option (List Char)} {tail : List Char}
    (h : wikiFind path line = some (pre, og, tail)) :
    ∃ mid, line = pre ++ '!' :: '[' :: '[' :: (path ++ (mid ++ ']' :: ']' :: tail)) := by
  induction line generalizing pre with
  | nil => exact absurd h (by simp [wikiFind])
  | cons c cs ih =>
    rw [wikiFind] at h
    cases hm : wikiMatchAt path (c :: cs) with
    | some r =>
      obtain ⟨og', t'⟩ := r
      rw [hm] at h
      simp only [Option.elim_some, Option.some.injEq, Prod.mk.injEq] at h
      obtain ⟨hpre, hog, htail⟩ := h
      subst hpre; subst hog; subst htail
      obtain ⟨mid, hmid⟩ := wikiMatchAt_some hm
      exact ⟨mid, by simpa using hmid⟩
    | none =>
      rw [hm] at h
      simp only [Option.elim_none, Option.map_eq_some'] at h
      obtain ⟨⟨p', og', t'⟩, hr', heq⟩ := h
      simp only [Prod.mk.injEq] at heq
      obtain ⟨hpre, hog, htail⟩ := heq
      subst hpre; subst hog; subst htail
      obtain ⟨mid, hmid⟩ := ih hr'
      exact ⟨mid, by rw [List.cons_append, ← hmid]⟩

theorem wikiMatchAt_construct_pipe (a path rest : List Char) (ha : ']' ∉ a) :
    wikiMatchAt path ('!' :: '[' :: '[' :: (path ++ '|' :: (a ++ ']' :: ']' :: rest))) =
      some (some a, rest) := by
  have hp : path.isPrefixOf (path ++ '|' :: (a ++ ']' :: ']' :: rest)) = true := by
    rw [List.isPrefixOf_iff_prefix]; exact List.prefix_append _ _
  simp only [wikiMatchAt, if_pos (⟨rfl, rfl, rfl⟩ : '!' = '!' ∧ '[' = '[' ∧ '[' = '['),
    hp, if_pos, List.drop_left, wikiAfterPath, if_pos (rfl : '|' = '|'),
    takeWhile_ne_append _ _ _ ha, dropWhile_ne_append _ _ _ ha, wikiAfterAlt,
    if_pos (⟨rfl, rfl⟩ : ']' = ']' ∧ ']' = ']')]
  simp

theorem wikiMatchAt_construct_bare (path rest : List Char) :
    wikiMatchAt path ('!' :: '[' :: '[' :: (path ++ ']' :: ']' :: rest)) =
      some (none, rest) := by
  have hp : path.isPrefixOf (path ++ ']' :: ']' :: rest) = true := by
    rw [List.isPrefixOf_iff_prefix]; exact List.prefix_append _ _
  simp only [wikiMatchAt, if_pos (⟨rfl, rfl, rfl⟩ : '!' = '!' ∧ '[' = '[' ∧ '[' = '['),
    hp, if_pos, List.drop_left, wikiAfterPath,
    if_neg (by decide : ¬ (']' : Char) = '|'), wikiCloseBare,
    if_pos (⟨rfl, rfl⟩ : ']' = ']' ∧ ']' = ']')]
  simp

theorem applyMd_of_find {line path newAlt pre alt sp tail : List Char}
    (h : mdFind path line = some (pre, alt, sp, tail)) :
    applyMarkdownImageAlt line path newAlt =
      (pre ++ '!' :: '[' :: (newAlt ++ ']' :: '(' :: (path ++ ')' :: tail)),
       if alt = [] then none else some alt) := by
  simp [applyMarkdownImageAlt, h, applyMdWith]

theorem applyWiki_of_find {line path newAlt pre : List Char}
    {og : Option (List Char)} {tail : List Char}
    (h : wikiFind path line = some (pre, og, tail)) :
    applyWikilinkImageAlt line path newAlt =
      (pre ++ '!' :: '[' :: '[' :: (path ++ '|' :: (newAlt ++ ']' :: ']' :: tail)),
       match og with
       | none => none
       | some a => if a = [] then none else some a) := by
  cases og with
  | none => simp [applyWikilinkImageAlt, h, applyWikiWith]
  | some a => simp [applyWikilinkImageAlt, h, applyWikiWith]



theorem wikiFind_cons_of_matchAt {path : List Char} {c : Char} {cs : List Char}
    {r : Option (List Char) × List Char}
    (h : wikiMatchAt path (c :: cs) = some r) :
    wikiFind path (c :: cs) = some ([], r.1, r.2) := by
  simp [wikiFind, h]

/-- C10.  When a target line contains two markdown-image (or wikilink)
constructs referencing the same asset path, the patcher rewrites only the
leftmost construct (substitution count 1): the whole text after the first
construct, including the second construct, is reproduced verbatim; the
previous value returned is the leftmost match's alt, and an empty alt is
reported as `none` rather than as the empty string. -/
theorem c10_leftmost_match_only :
    (∀ (a1 a2 path newAlt mid tl : List Char), ']' ∉ a1 →
      applyMarkdownImageAlt
        ('!' :: '[' :: (a1 ++ ']' :: '(' :: (path ++ ')' ::
          (mid ++ '!' :: '[' :: (a2 ++ ']' :: '(' :: (path ++ ')' :: tl)))))) path newAlt =
        ('!' :: '[' :: (newAlt ++ ']' :: '(' :: (path ++ ')' ::
          (mid ++ '!' :: '[' :: (a2 ++ ']' :: '(' :: (path ++ ')' :: tl))))),
         if a1 = [] then none else some a1)) ∧
    (∀ (a1 path newAlt mid tl : List Char), ']' ∉ a1 →
      applyWikilinkImageAlt
        ('!' :: '[' :: '[' :: (path ++ '|' :: (a1 ++ ']' :: ']' ::
          (mid ++ '!' :: '[' :: '[' :: (path ++ ']' :: ']' :: tl))))) path newAlt =
        ('!' :: '[' :: '[' :: (path ++ '|' :: (newAlt ++ ']' :: ']' ::
          (mid ++ '!' :: '[' :: '[' :: (path ++ ']' :: ']' :: tl)))),
         if a1 = [] then none else some a1)) := by
  constructor
  · intro a1 a2 path newAlt mid tl ha
    have hm := mdMatchAt_construct a1 path
      (mid ++ '!' :: '[' :: (a2 ++ ']' :: '(' :: (path ++ ')' :: tl))) ha
    have hf := mdFind_cons_of_matchAt hm
    rw [applyMd_of_find hf]
    simp
  · intro a1 path newAlt mid tl ha
    have hm := wikiMatchAt_construct_pipe a1 path
      (mid ++ '!' :: '[' :: '[' :: (path ++ ']' :: ']' :: tl)) ha
    have hf := wikiFind_cons_of_matchAt hm
    rw [applyWiki_of_find hf]
    simp

/-- C5, amended claim.  Scan→patch→rescan reaches zero deficiencies for a
markdown-image construct provided the applied text is itself judged
meaningful by the scanner's rule (non-blank and not a placeholder word) and
contains no `]` and no line-break character: after the patch the construct's
alt is exactly the new text, which the scanner accepts.  (As stated — for
every non-empty text — the claim is false, see the counterexample.) -/
theorem c5_meaningful_rescan_clean (a path newAlt tail : List Char)
    (ha : ']' ∉ a) (hT : ']' ∉ newAlt)
    (_hTb : ∀ c ∈ newAlt, isPyLineBreak c = false)
    (_hdef : scanLineMarkdownImageDeficient
      ('!' :: '[' :: (a ++ ']' :: '(' :: (path ++ ')' :: tail))) path = true)
    (hTm : isAltMeaningful (some newAlt) = true) :
    scanLineMarkdownImageDeficient
      ((applyMarkdownImageAlt
        ('!' :: '[' :: (a ++ ']' :: '(' :: (path ++ ')' :: tail))) path newAlt).1)
      path = false := by
  have hm := mdMatchAt_construct a path tail ha
  have hf := mdFind_cons_of_matchAt hm
  rw [applyMd_of_find hf]
  have hne : newAlt ≠ [] := by
    intro heq
    rw [heq] at hTm
    exact absurd hTm (by decide)
  have hm2 := mdMatchAt_construct newAlt path tail hT
  have hf2 := mdFind_cons_of_matchAt hm2
  simp only [List.nil_append] at hf2 ⊢
  simp [scanLineMarkdownImageDeficient, hf2, hne, hTm]

theorem tryFormats_of_finders_none {line path newAlt : List Char}
    (h1 : mdFind path line = none) (h2 : wikiFind path line = none)
    (h3 : imgFind path line = none) :
    tryFormatsStaged line path newAlt = (line, none) := by
  simp [tryFormatsStaged, applyMarkdownImageAlt, applyWikilinkImageAlt,
    applyHtmlImageAlt, h1, h2, h3, applyMdWith, applyWikiWith, applyHtmlWith]

theorem applyCaptionContent_none_of_finders {source path newAlt : List Char} {n : Int}
    (h1 : mdFind path ((pySplitlines source).getD ((n - 1).toNat) []) = none)
    (h2 : wikiFind path ((pySplitlines source).getD ((n - 1).toNat) []) = none)
    (h3 : imgFind path ((pySplitlines source).getD ((n - 1).toNat) []) = none) :
    applyCaptionContent source path newAlt n = none := by
  have hline := @tryFormats_of_finders_none _ _ newAlt h1 h2 h3
  simp only [List.getD_eq_getElem?_getD,
    (show (n - 1).toNat = n.toNat - 1 by omega)] at hline
  by_cases hr : n < 1 ∨ n > ((pySplitlines source).length : Int)
  · simp [applyCaptionContent, hr]
  · simp [applyCaptionContent, hr, hline]

theorem runTasks_cons_of_none {content : List Char} {t : CaptionTask}
    {ts : List CaptionTask}
    (h : applyCaptionContent content t.assetPath t.finalAlt t.lineNumber = none) :
    runTasks content (t :: ts) = runTasks content ts := by
  simp [runTasks, h]

theorem mdFind_none_of_no_occurrence {line path : List Char}
    (h : ¬ path <:+: line) : mdFind path line = none := by
  cases hf : mdFind path line with
  | none => rfl
  | some r =>
    obtain ⟨pre, alt, sp, tail⟩ := r
    exact absurd
      ⟨pre ++ '!' :: '[' :: (alt ++ [']', '(']), sp ++ ')' :: tail, by
        rw [mdFind_some hf]; simp⟩ h

theorem wikiFind_none_of_no_occurrence {line path : List Char}
    (h : ¬ path <:+: line) : wikiFind path line = none := by
  cases hf : wikiFind path line with
  | none => rfl
  | some r =>
    obtain ⟨pre, og, tail⟩ := r
    obtain ⟨mid, hmid⟩ := wikiFind_some hf
    exact absurd
      ⟨pre ++ ['!', '[', '['], mid ++ ']' :: ']' :: tail, by rw [hmid]; simp⟩ h

theorem ciPrefixOf_append {pat u v : List Char}
    (h : ciPrefixOf pat u = true) : ciPrefixOf pat (u ++ v) = true := by
  induction pat generalizing u with
  | nil => simp [ciPrefixOf]
  | cons p ps ih =>
    cases u with
    | nil => exact absurd h (by simp [ciPrefixOf])
    | cons c cs =>
      simp only [ciPrefixOf, Bool.and_eq_true] at h ⊢
      exact ⟨h.1, ih h.2⟩

theorem ciSubstr_of_prefix_drop {pat s : List Char} {j : Nat}
    (h : ciPrefixOf pat (s.drop j) = true) : ciSubstr pat s = true := by
  induction s generalizing j with
  | nil => simpa [ciSubstr] using h
  | cons c cs ih =>
    cases j with
    | zero =>
      rw [List.drop_zero] at h
      simp [ciSubstr, h]
    | succ j' =>
      simp only [List.drop_succ_cons] at h
      simp [ciSubstr, ih h]

theorem ciSubstr_exists {pat s : List Char}
    (h : ciSubstr pat s = true) : ∃ j, ciPrefixOf pat (s.drop j) = true := by
  induction s with
  | nil => exact ⟨0, by simpa [ciSubstr] using h⟩
  | cons c cs ih =>
    simp only [ciSubstr, Bool.or_eq_true] at h
    cases h with
    | inl h => exact ⟨0, by simpa using h⟩
    | inr h =>
      obtain ⟨j, hj⟩ := ih h
      exact ⟨j + 1, by simpa using hj⟩

theorem ciOccsAux_mem {pat s : List Char} {i k : Nat}
    (h : k ∈ ciOccsAux pat s i) :
    i ≤ k ∧ ciPrefixOf pat (s.drop (k - i)) = true := by
  induction s generalizing i with
  | nil => exact absurd h (by simp [ciOccsAux])
  | cons c cs ih =>
    simp only [ciOccsAux] at h
    by_cases hp : ciPrefixOf pat (c :: cs) = true
    · rw [if_pos hp] at h
      rcases List.mem_cons.mp h with h | h
      · subst h; simpa using hp
      · obtain ⟨h1, h2⟩ := ih h
        refine ⟨by omega, ?_⟩
        have : k - i = (k - (i + 1)) + 1 := by omega
        rw [this, List.drop_succ_cons]
        exact h2
    · rw [if_neg hp] at h
      obtain ⟨h1, h2⟩ := ih h
      refine ⟨by omega, ?_⟩
      have : k - i = (k - (i + 1)) + 1 := by omega
      rw [this, List.drop_succ_cons]
      exact h2

theorem tryImgOccs_some_mem {body pat : List Char} {l : List Nat}
    {r : List Char × List Char × List Char}
    (h : tryImgOccs body pat l = some r) : ∃ k ∈ l, True := by
  induction l with
  | nil => exact absurd h (by simp [tryImgOccs])
  | cons k ks ih =>
    rw [tryImgOccs] at h
    cases hs : splitTagTail (body.drop (k + pat.length)) with
    | some q => exact ⟨k, List.mem_cons_self _ _, trivial⟩
    | none =>
      rw [hs] at h
      simp only [Option.elim_none] at h
      obtain ⟨k', hk', _⟩ := ih h
      exact ⟨k', List.mem_cons_of_mem _ hk', trivial⟩



theorem ciPrefixOf_take_drop {pat w : List Char} {g m : Nat}
    (hp : pat ≠ []) (h : ciPrefixOf pat ((w.take g).drop m) = true) :
    ciSubstr pat w = true := by
  have hm : m ≤ (w.take g).length := by
    by_contra hgt
    rw [List.drop_eq_nil_of_le (by omega)] at h
    cases pat with
    | nil => exact hp rfl
    | cons p ps => exact absurd h (by simp [ciPrefixOf])
  have hsplit : w.drop m = (w.take g).drop m ++ w.drop g := by
    conv_lhs => rw [← List.take_append_drop g w]
    rw [List.drop_append_of_le_length hm]
  have : ciPrefixOf pat (w.drop m) = true := by
    rw [hsplit]; exact ciPrefixOf_append h
  exact ciSubstr_of_prefix_drop this

theorem imgMatchAt_ciSubstr {path s : List Char}
    {r : List Char × List Char × List Char}
    (h : imgMatchAt path s = some r) : ciSubstr (srcNeedle path) s = true := by
  unfold imgMatchAt at h
  by_cases hc : ciPrefixOf ['<', 'i', 'm', 'g'] s = true
  · rw [if_pos hc] at h
    simp only [] at h
    by_cases hw : (s.drop 4).takeWhile isPySpace = []
    · rw [if_pos hw] at h; exact absurd h (by simp)
    · rw [if_neg hw] at h
      cases hg : (s.drop 4).findIdx? (fun c => c = '>') with
      | none => rw [hg] at h; exact absurd h (by simp [imgAtG])
      | some g =>
        rw [hg] at h
        simp only [imgAtG] at h
        by_cases hlt : g < ((s.drop 4).takeWhile isPySpace).length
        · rw [if_pos hlt] at h; exact absurd h (by simp)
        · rw [if_neg hlt] at h
          obtain ⟨k, hk, _⟩ := tryImgOccs_some_mem h
          rw [List.mem_reverse] at hk
          obtain ⟨_, hkp⟩ := ciOccsAux_mem hk
          rw [Nat.sub_zero, List.drop_drop] at hkp
          have hsub : ciSubstr (srcNeedle path) (s.drop 4) = true :=
            ciPrefixOf_take_drop (by simp [srcNeedle]) hkp
          obtain ⟨j, hj⟩ := ciSubstr_exists hsub
          rw [List.drop_drop] at hj
          exact ciSubstr_of_prefix_drop hj
  · rw [if_neg hc] at h; exact absurd h (by simp)

theorem imgFind_none_of_not_ciSubstr {line path : List Char}
    (h : ciSubstr (srcNeedle path) line = false) : imgFind path line = none := by
  induction line with
  | nil => simp [imgFind]
  | cons c cs ih =>
    have hm : imgMatchAt path (c :: cs) = none := by
      cases hmm : imgMatchAt path (c :: cs) with
      | none => rfl
      | some r =>
        rw [imgMatchAt_ciSubstr hmm] at h
        exact absurd h (by simp)
    have hcs : ciSubstr (srcNeedle path) cs = false := by
      have h2 := h
      simp only [ciSubstr, Bool.or_eq_false_iff] at h2
      exact h2.2
    simp [imgFind, hm, ih hcs]



/-- C9.  When none of the three format recognizers matches the asset path
on the target line, the patcher leaves the content unchanged and reports
failure (`none`) for that record, and the per-file loop continues with the
remaining records exactly as if the failed record were absent.  Moreover,
if the asset path does not occur on the line at all (as a substring for the
markdown/wikilink recognizers, as `src="path"` case-insensitively for the
HTML recognizer), then the corresponding recognizer cannot match. -/
theorem c9_no_match_local_failure :
    (∀ (source path newAlt : List Char) (n : Int),
      mdFind path ((pySplitlines source).getD ((n - 1).toNat) []) = none →
      wikiFind path ((pySplitlines source).getD ((n - 1).toNat) []) = none →
      imgFind path ((pySplitlines source).getD ((n - 1).toNat) []) = none →
      applyCaptionContent source path newAlt n = none) ∧
    (∀ (content : List Char) (t : CaptionTask) (ts : List CaptionTask),
      applyCaptionContent content t.assetPath t.finalAlt t.lineNumber = none →
      runTasks content (t :: ts) = runTasks content ts) ∧
    (∀ (line path : List Char), ¬ path <:+: line →
      mdFind path line = none ∧ wikiFind path line = none) ∧
    (∀ (line path : List Char), ciSubstr (srcNeedle path) line = false →
      imgFind path line = none) := by
  refine ⟨?_, ?_, ?_, ?_⟩
  · intro source path newAlt n h1 h2 h3
    exact applyCaptionContent_none_of_finders h1 h2 h3
  · intro content t ts h
    exact runTasks_cons_of_none h
  · intro line path h
    exact ⟨mdFind_none_of_no_occurrence h, wikiFind_none_of_no_occurrence h⟩
  · intro line path h
    exact imgFind_none_of_not_ciSubstr h

theorem getLast?_cons_ne_nil {α : Type} {c : α} {l : List α} (h : l ≠ []) :
    (c :: l).getLast? = l.getLast? := by
  cases l with
  | nil => exact absurd rfl h
  | cons b bs => exact List.getLast?_cons_cons ..

theorem getLast?_drop_ne_nil {l : List Char} {n : Nat} (h : l.drop n ≠ []) :
    (l.drop n).getLast? = l.getLast? := by
  conv_rhs => rw [← List.take_append_drop n l]
  rw [List.getLast?_append_of_ne_nil _ h]

theorem pyReplaceFuel_last {old new : List Char} (hnew : new ≠ [])
    (hnl : new.getLast? ≠ some '\n') :
    ∀ (fuel : Nat) (s : List Char), s.getLast? ≠ some '\n' →
      (pyReplaceFuel old new fuel s = [] → s = []) ∧
        (pyReplaceFuel old new fuel s).getLast? ≠ some '\n'
  | 0, s, hs => ⟨fun h => h, hs⟩
  | fuel + 1, [], _ => by simp [pyReplaceFuel]
  | fuel + 1, c :: cs, hs => by
    rw [pyReplaceFuel]
    by_cases hb : (old ≠ [] && old.isPrefixOf (c :: cs)) = true
    · rw [if_pos hb]
      have hd : ((c :: cs).drop old.length).getLast? ≠ some '\n' := by
        by_cases hdn : (c :: cs).drop old.length = []
        · rw [hdn]; simp
        · rw [getLast?_drop_ne_nil hdn]; exact hs
      obtain ⟨ih1, ih2⟩ := pyReplaceFuel_last hnew hnl fuel _ hd
      constructor
      · intro h
        exact absurd h (by simp [hnew])
      · by_cases hrec : pyReplaceFuel old new fuel ((c :: cs).drop old.length) = []
        · rw [hrec, List.append_nil]; exact hnl
        · rw [List.getLast?_append_of_ne_nil _ hrec]; exact ih2
    · rw [if_neg hb]
      have hcs : cs.getLast? ≠ some '\n' := by
        by_cases hn : cs = []
        · rw [hn]; simp
        · rw [← getLast?_cons_ne_nil (c := c) hn]; exact hs
      obtain ⟨ih1, ih2⟩ := pyReplaceFuel_last hnew hnl fuel cs hcs
      constructor
      · intro h; exact absurd h (by simp)
      · by_cases hrec : pyReplaceFuel old new fuel cs = []
        · rw [hrec]
          have : cs = [] := ih1 hrec
          subst this
          simpa using fun hc => hs (by simp [hc])
        · rw [getLast?_cons_ne_nil hrec]; exact ih2

theorem htmlTag_eq_concat (attrs ws2 slash : List Char) :
    htmlTag attrs ws2 slash =
      ('<' :: 'i' :: 'm' :: 'g' :: ' ' :: (attrs ++ ws2 ++ slash)) ++ ['>'] := by
  simp [htmlTag]

theorem htmlTag_getLast? (attrs ws2 slash : List Char) :
    (htmlTag attrs ws2 slash).getLast? = some '>' := by
  rw [htmlTag_eq_concat, List.getLast?_concat]

theorem htmlTag_ne_nil (attrs ws2 slash : List Char) :
    htmlTag attrs ws2 slash ≠ [] := by
  simp [htmlTag]



theorem applyMd_last {line path T : List Char} (hne : line ≠ [])
    (h0 : line.getLast? ≠ some '\n') :
    (applyMarkdownImageAlt line path T).1 ≠ [] ∧
      (applyMarkdownImageAlt line path T).1.getLast? ≠ some '\n' := by
  cases hf : mdFind path line with
  | none => simpa [applyMarkdownImageAlt, hf, applyMdWith] using ⟨hne, h0⟩
  | some r =>
    obtain ⟨pre, alt, sp, tail⟩ := r
    rw [applyMd_of_find hf]
    have hdec := mdFind_some hf
    cases tail with
    | nil =>
      refine ⟨by simp, ?_⟩
      have he : pre ++ '!' :: '[' :: (T ++ ']' :: '(' :: (path ++ ')' :: ([] : List Char))) =
          (pre ++ '!' :: '[' :: (T ++ ']' :: '(' :: path)) ++ [')'] := by
        simp
      rw [he, List.getLast?_concat]
      simp
    | cons tc tcs =>
      refine ⟨by simp, ?_⟩
      have he : pre ++ '!' :: '[' :: (T ++ ']' :: '(' :: (path ++ ')' :: (tc :: tcs))) =
          (pre ++ '!' :: '[' :: (T ++ ']' :: '(' :: (path ++ [')']))) ++ (tc :: tcs) := by
        simp
      rw [he, List.getLast?_append_of_ne_nil _ (by simp)]
      have hl : line = (pre ++ '!' :: '[' :: (alt ++ ']' :: '(' :: (path ++ sp ++ [')']))) ++
          (tc :: tcs) := by
        rw [hdec]; simp
      rw [hl, List.getLast?_append_of_ne_nil _ (by simp)] at h0
      exact h0

theorem applyWiki_last {line path T : List Char} (hne : line ≠ [])
    (h0 : line.getLast? ≠ some '\n') :
    (applyWikilinkImageAlt line path T).1 ≠ [] ∧
      (applyWikilinkImageAlt line path T).1.getLast? ≠ some '\n' := by
  cases hf : wikiFind path line with
  | none => simpa [applyWikilinkImageAlt, hf, applyWikiWith] using ⟨hne, h0⟩
  | some r =>
    obtain ⟨pre, og, tail⟩ := r
    rw [applyWiki_of_find hf]
    obtain ⟨mid, hdec⟩ := wikiFind_some hf
    cases tail with
    | nil =>
      refine ⟨by simp, ?_⟩
      have he : pre ++ '!' :: '[' :: '[' :: (path ++ '|' :: (T ++ ']' :: ']' :: ([] : List Char))) =
          (pre ++ '!' :: '[' :: '[' :: (path ++ '|' :: (T ++ [']']))) ++ [']'] := by
        simp
      rw [he, List.getLast?_concat]
      simp
    | cons tc tcs =>
      refine ⟨by simp, ?_⟩
      have he : pre ++ '!' :: '[' :: '[' :: (path ++ '|' :: (T ++ ']' :: ']' :: (tc :: tcs))) =
          (pre ++ '!' :: '[' :: '[' :: (path ++ '|' :: (T ++ [']', ']']))) ++ (tc :: tcs) := by
        simp
      rw [he, List.getLast?_append_of_ne_nil _ (by simp)]
      have hl : line = (pre ++ '!' :: '[' :: '[' :: (path ++ mid ++ [']', ']'])) ++
          (tc :: tcs) := by
        rw [hdec]; simp
      rw [hl, List.getLast?_append_of_ne_nil _ (by simp)] at h0
      exact h0

theorem applyHtml_last {line path T : List Char} (hne : line ≠ [])
    (h0 : line.getLast? ≠ some '\n') :
    (applyHtmlImageAlt line path T).1 ≠ [] ∧
      (applyHtmlImageAlt line path T).1.getLast? ≠ some '\n' := by
  cases hf : imgFind path line with
  | none => simpa [applyHtmlImageAlt, hf, applyHtmlWith] using ⟨hne, h0⟩
  | some r =>
    obtain ⟨g1, ws2, slash⟩ := r
    have hres : (applyHtmlImageAlt line path T).1 =
        pyReplace line (htmlTag (pyRstrip g1) ws2 slash)
          (htmlTag (htmlRewriteAttrs path T (pyRstrip g1)).1 ws2 slash) := by
      simp [applyHtmlImageAlt, hf, applyHtmlWith]
    rw [hres]
    rw [pyReplace, if_neg (htmlTag_ne_nil _ _ _)]
    have hlem := @pyReplaceFuel_last (htmlTag (pyRstrip g1) ws2 slash)
      (htmlTag (htmlRewriteAttrs path T (pyRstrip g1)).1 ws2 slash)
      (htmlTag_ne_nil _ _ _)
      (by rw [htmlTag_getLast?]; simp)
      line.length line h0
    exact ⟨fun h => hne (hlem.1 h), hlem.2⟩

theorem tryFormats_last {line path T : List Char} (hne : line ≠ [])
    (h0 : line.getLast? ≠ some '\n') :
    (tryFormatsStaged line path T).1 ≠ [] ∧
      (tryFormatsStaged line path T).1.getLast? ≠ some '\n' := by
  unfold tryFormatsStaged
  by_cases h1 : (applyMarkdownImageAlt line path T).1 ≠ line
  · simpa [h1] using applyMd_last hne h0
  · by_cases h2 : (applyWikilinkImageAlt line path T).1 ≠ line
    · simpa [h1, h2] using applyWiki_last hne h0
    · by_cases h3 : (applyHtmlImageAlt line path T).1 ≠ line
      · simpa [h1, h2, h3] using applyHtml_last hne h0
      · simpa [h1, h2, h3] using ⟨hne, h0⟩



theorem splitLinesAux_no_break :
    ∀ (s acc : List Char) (f : Bool), (∀ c ∈ acc, isPyLineBreak c = false) →
      ∀ l ∈ splitLinesAux s acc f, ∀ c ∈ l, isPyLineBreak c = false
  | [], acc, f, hacc, l, hl, c, hc => by
    rw [splitLinesAux] at hl
    by_cases ha : acc = []
    · rw [if_pos ha] at hl; exact absurd hl (by simp)
    · rw [if_neg ha] at hl
      simp only [List.mem_singleton] at hl
      subst hl
      exact hacc c (List.mem_reverse.mp hc)
  | d :: rest, acc, f, hacc, l, hl, c, hc => by
    rw [splitLinesAux] at hl
    by_cases h1 : f = true ∧ d = '\n'
    · rw [if_pos h1] at hl
      exact splitLinesAux_no_break rest acc false hacc l hl c hc
    · rw [if_neg h1] at hl
      by_cases h2 : d = '\r'
      · rw [if_pos h2] at hl
        rcases List.mem_cons.mp hl with hl | hl
        · subst hl; exact hacc c (List.mem_reverse.mp hc)
        · exact splitLinesAux_no_break rest [] true (by simp) l hl c hc
      · rw [if_neg h2] at hl
        by_cases h3 : isPyLineBreak d = true
        · rw [if_pos h3] at hl
          rcases List.mem_cons.mp hl with hl | hl
          · subst hl; exact hacc c (List.mem_reverse.mp hc)
          · exact splitLinesAux_no_break rest [] false (by simp) l hl c hc
        · rw [if_neg h3] at hl
          refine splitLinesAux_no_break rest (d :: acc) false ?_ l hl c hc
          intro x hx
          rcases List.mem_cons.mp hx with hx | hx
          · subst hx; simpa using h3
          · exact hacc x hx

theorem splitLinesAux_last :
    ∀ (s acc : List Char), (∀ c ∈ s, isPyLineBreak c = true → c = '\n') →
      (s = [] → acc ≠ []) → s.getLast? ≠ some '\n' →
      ∃ l, (splitLinesAux s acc false).getLast? = some l ∧ l ≠ []
  | [], acc, _, hacc, _ => by
    rw [splitLinesAux, if_neg (hacc rfl)]
    exact ⟨acc.reverse, rfl, by simpa using hacc rfl⟩
  | d :: rest, acc, honly, _, hlast => by
    rw [splitLinesAux, if_neg (by simp)]
    have hdr : d ≠ '\r' := by
      intro h
      have := honly d (List.mem_cons_self _ _) (by rw [h]; rfl)
      rw [h] at this
      exact absurd this (by decide)
    rw [if_neg hdr]
    by_cases hbr : isPyLineBreak d = true
    · have hdn : d = '\n' := honly d (List.mem_cons_self _ _) hbr
      subst hdn
      rw [if_pos hbr]
      have hrest : rest ≠ [] := by
        intro h
        subst h
        exact hlast rfl
      have honly2 : ∀ c ∈ rest, isPyLineBreak c = true → c = '\n' :=
        fun c hc => honly c (List.mem_cons_of_mem _ hc)
      have hlast2 : rest.getLast? ≠ some '\n' := by
        rw [← getLast?_cons_ne_nil (c := '\n') hrest]
        exact hlast
      obtain ⟨l, hl, hlne⟩ :=
        splitLinesAux_last rest [] honly2 (fun h => absurd h hrest) hlast2
      refine ⟨l, ?_, hlne⟩
      rw [getLast?_cons_ne_nil ?hne, hl]
      case hne =>
        intro h
        rw [h] at hl
        exact absurd hl (by simp)
    · rw [if_neg hbr]
      have honly2 : ∀ c ∈ rest, isPyLineBreak c = true → c = '\n' :=
        fun c hc => honly c (List.mem_cons_of_mem _ hc)
      have hlast2 : rest.getLast? ≠ some '\n' := by
        by_cases hr : rest = []
        · rw [hr]; simp
        · rw [← getLast?_cons_ne_nil (c := d) hr]; exact hlast
      exact splitLinesAux_last rest (d :: acc) honly2 (by simp) hlast2

theorem joinNl_getLast :
    ∀ (ls : List (List Char)) (l : List Char),
      ls.getLast? = some l → l ≠ [] → (joinNl ls).getLast? = l.getLast?
  | [], l, h, _ => absurd h (by simp)
  | [x], l, h, _ => by
    simp only [List.getLast?_singleton, Option.some.injEq] at h
    subst h
    rfl
  | x :: y :: rest, l, h, hlne => by
    rw [List.getLast?_cons_cons] at h
    have ih := joinNl_getLast (y :: rest) l h hlne
    have hJ : joinNl (y :: rest) ≠ [] := by
      intro hj
      rw [hj] at ih
      rw [List.getLast?_eq_getLast_of_ne_nil hlne] at ih
      exact absurd ih (by simp)
    show (x ++ '\n' :: joinNl (y :: rest)).getLast? = l.getLast?
    rw [List.getLast?_append_of_ne_nil _ (by simp), getLast?_cons_ne_nil hJ, ih]

theorem set_getLast? :
    ∀ (l : List (List Char)) (i : Nat) (m : List Char), i < l.length →
      (l.set i m).getLast? = if i = l.length - 1 then some m else l.getLast?
  | [], i, m, h => absurd h (by simp)
  | x :: xs, 0, m, _ => by
    cases xs with
    | nil => simp
    | cons y ys =>
      rw [List.set_cons_zero, if_neg (by simp)]
      rw [List.getLast?_cons_cons, List.getLast?_cons_cons]
  | x :: xs, i + 1, m, h => by
    cases xs with
    | nil => simp at h
    | cons y ys =>
      rw [List.set_cons_succ]
      have hlen : i < (y :: ys).length := by simpa using h
      have ih := set_getLast? (y :: ys) i m hlen
      have hset : (y :: ys).set i m ≠ [] := by
        intro hs
        have := congrArg List.length hs
        simp at this
      rw [getLast?_cons_ne_nil hset, ih]
      by_cases hi : i = (y :: ys).length - 1
      · rw [if_pos hi, if_pos (by simp at hi ⊢; omega)]
      · rw [if_neg hi, if_neg (by simp at hi ⊢; omega),
          List.getLast?_cons_cons]



/-- C7, amended claim.  For every file whose line terminators are all
`\n` (no stray `\r` or other exotic terminator), a successful patch
preserves the presence or absence of a trailing newline at end-of-file.
(As stated — for every file — the claim is false, see the
counterexample with a file ending in `\n\r`.) -/
theorem c7_trailing_newline_preserved :
    ∀ (source path newAlt : List Char) (n : Int) (content : List Char)
      (oldAlt : Option (List Char)),
      (∀ c ∈ source, isPyLineBreak c = true → c = '\n') →
      applyCaptionContent source path newAlt n = some (content, oldAlt) →
      endsNl content = endsNl source := by
  intro source path T n content oldAlt honly happ
  by_cases hr : n < 1 ∨ n > ((pySplitlines source).length : Int)
  · simp [applyCaptionContent, hr] at happ
  · simp only [applyCaptionContent] at happ
    rw [if_neg hr] at happ
    by_cases hchg : (tryFormatsStaged
        ((pySplitlines source).getD ((n - 1).toNat) []) path T).1 =
        (pySplitlines source).getD ((n - 1).toNat) []
    · rw [if_pos hchg] at happ; exact absurd happ (by simp)
    · rw [if_neg hchg] at happ
      simp only [Option.some.injEq, Prod.mk.injEq] at happ
      obtain ⟨hcont, _⟩ := happ
      subst hcont
      cases hEnd : endsNl source with
      | true =>
        simp [endsNl, List.getLast?_concat]
      | false =>
        simp only [Bool.false_eq_true, if_false, List.append_nil]
        push_neg at hr
        obtain ⟨hr1, hr2⟩ := hr
        have hr1' : 1 ≤ n := by omega
        have hlenpos : 0 < (pySplitlines source).length := by
          have h1 : (1 : Int) ≤ ((pySplitlines source).length : Int) := le_trans hr1' hr2
          exact_mod_cast lt_of_lt_of_le zero_lt_one h1
        have hidx : (n - 1).toNat < (pySplitlines source).length := by omega
        have hsrcne : source ≠ [] := by
          intro h
          rw [h] at hlenpos
          simp [pySplitlines, splitLinesAux] at hlenpos
        have hsrclast : source.getLast? ≠ some '\n' := by
          intro h
          rw [endsNl, h] at hEnd
          simp at hEnd
        obtain ⟨llast, hllast, hllne⟩ :=
          splitLinesAux_last source [] honly (fun h => absurd h hsrcne) hsrclast
        have hlinesne : pySplitlines source ≠ [] := by
          intro h
          rw [h] at hlenpos
          simp at hlenpos
        have hlines_last : (pySplitlines source).getLast? = some llast := hllast
        have hnobreak := splitLinesAux_no_break source [] false (by simp)
        have hL : (pySplitlines source).getD ((n - 1).toNat) [] =
            (pySplitlines source)[(n - 1).toNat] := by
          rw [List.getD_eq_getElem?_getD, List.getElem?_eq_getElem hidx]
          rfl
        have hLmem : (pySplitlines source)[(n - 1).toNat] ∈ pySplitlines source :=
          List.getElem_mem hidx
        have hLnb : ∀ c ∈ (pySplitlines source)[(n - 1).toNat],
            isPyLineBreak c = false := hnobreak _ hLmem
        have hLne : (pySplitlines source).getD ((n - 1).toNat) [] ≠ [] := by
          rw [hL]
          intro h
          -- the target line could in principle be empty only if it is not
          -- the last line; but emptiness only matters when the recognizers
          -- change the line, which cannot happen for the empty line
          exact hchg (by rw [hL, h]; simp [tryFormatsStaged,
            applyMarkdownImageAlt, applyWikilinkImageAlt, applyHtmlImageAlt,
            mdFind, wikiFind, imgFind, applyMdWith, applyWikiWith, applyHtmlWith])
        have hL0 : ((pySplitlines source).getD ((n - 1).toNat) []).getLast? ≠
            some '\n' := by
          rw [hL]
          intro h
          obtain ⟨hne2, heq⟩ := List.mem_getLast?_eq_getLast (by rw [h]; rfl :
            '\n' ∈ ((pySplitlines source)[(n - 1).toNat]).getLast?)
          have hmem := List.getLast_mem hne2
          rw [← heq] at hmem
          have := hLnb '\n' hmem
          exact absurd this (by decide)
        obtain ⟨hmne, hm0⟩ := @tryFormats_last _ path T hLne hL0
        have hset := set_getLast? (pySplitlines source) ((n - 1).toNat)
          (tryFormatsStaged ((pySplitlines source).getD ((n - 1).toNat) []) path T).1 hidx
        by_cases hil : (n - 1).toNat = (pySplitlines source).length - 1
        · rw [if_pos hil] at hset
          have hj := joinNl_getLast _ _ hset hmne
          rw [endsNl, hj]
          simpa using hm0
        · rw [if_neg hil] at hset
          rw [hlines_last] at hset
          have hllnb : ∀ c ∈ llast, isPyLineBreak c = false := by
            have hmem : llast ∈ pySplitlines source := by
              obtain ⟨hne2, heq⟩ := List.mem_getLast?_eq_getLast
                (by rw [hlines_last]; rfl : llast ∈ (pySplitlines source).getLast?)
              rw [heq]
              exact List.getLast_mem hne2
            exact hnobreak _ hmem
          have hll0 : llast.getLast? ≠ some '\n' := by
            intro h
            obtain ⟨hne2, heq⟩ := List.mem_getLast?_eq_getLast
              (by rw [h]; rfl : '\n' ∈ llast.getLast?)
            have hmem := List.getLast_mem hne2
            rw [← heq] at hmem
            have := hllnb '\n' hmem
            exact absurd this (by decide)
          have hj := joinNl_getLast _ _ hset hllne
          rw [endsNl, hj]
          simpa using hll0

theorem sortDescending_sorted (ts : List CaptionTask) :
    List.Sorted (fun a b => b.lineNumber ≤ a.lineNumber) (sortDescending ts) := by
  haveI : IsTotal CaptionTask (fun a b => b.lineNumber ≤ a.lineNumber) :=
    ⟨fun a b => le_total _ _⟩
  haveI : IsTrans CaptionTask (fun a b => b.lineNumber ≤ a.lineNumber) :=
    ⟨fun _ _ _ h1 h2 => le_trans h2 h1⟩
  exact List.sorted_insertionSort _ ts

theorem sortDescending_eq_of_perm {ts1 ts2 : List CaptionTask}
    (hperm : ts1.Perm ts2)
    (hdist : ts1.Pairwise (fun a b => a.lineNumber ≠ b.lineNumber)) :
    sortDescending ts1 = sortDescending ts2 := by
  have hp : (sortDescending ts1).Perm (sortDescending ts2) :=
    ((List.perm_insertionSort _ ts1).trans hperm).trans
      (List.perm_insertionSort _ ts2).symm
  have hd1 : (sortDescending ts1).Pairwise
      (fun a b => a.lineNumber ≠ b.lineNumber) :=
    ((List.perm_insertionSort _ ts1).pairwise_iff (fun h => Ne.symm h)).mpr hdist
  have hd2 : (sortDescending ts2).Pairwise
      (fun a b => a.lineNumber ≠ b.lineNumber) :=
    (hperm.trans (List.perm_insertionSort _ ts2).symm).pairwise_iff (fun h => Ne.symm h) |>.mp hdist
  have hstrict1 : List.Sorted (fun a b : CaptionTask => b.lineNumber < a.lineNumber)
      (sortDescending ts1) :=
    ((sortDescending_sorted ts1).and hd1).imp
      fun h => lt_of_le_of_ne h.1 (Ne.symm h.2)
  have hstrict2 : List.Sorted (fun a b : CaptionTask => b.lineNumber < a.lineNumber)
      (sortDescending ts2) :=
    ((sortDescending_sorted ts2).and hd2).imp
      fun h => lt_of_le_of_ne h.1 (Ne.symm h.2)
  haveI : IsAntisymm CaptionTask (fun a b => b.lineNumber < a.lineNumber) :=
    ⟨fun a b h1 h2 => absurd (lt_trans h1 h2) (lt_irrefl _)⟩
  exact List.eq_of_perm_of_sorted hp hstrict1 hstrict2

/-- C8, amended claim.  The patcher processes each file's records in
descending line-number order (the sorted list is descending), and when the
records' line numbers are pairwise distinct the final content is the same
for every permutation of the input record list.  (As stated — for every
batch — the claim is false for records sharing a line number, see the
counterexample.) -/
theorem c8_descending_order_invariance :
    (∀ ts : List CaptionTask,
      List.Sorted (fun a b => b.lineNumber ≤ a.lineNumber) (sortDescending ts)) ∧
    (∀ (source : List Char) (ts1 ts2 : List CaptionTask),
      ts1.Perm ts2 → ts1.Pairwise (fun a b => a.lineNumber ≠ b.lineNumber) →
      applyBatch source ts1 = applyBatch source ts2) := by
  refine ⟨sortDescending_sorted, ?_⟩
  intro source ts1 ts2 hperm hdist
  unfold applyBatch
  rw [sortDescending_eq_of_perm hperm hdist]


/-! ## Closed claim theorems and witnesses -/

/-- C1.  The claim says every run of line breaks in the replacement text is
collapsed to `" ... "` before insertion, so that applying
`"First line\nSecond line\nThird line"` to a markdown image yields
`![First line ... Second line ... Third line](image.png)`.  The patcher in
`apply.py` performs no such collapsing: the text is inserted verbatim and
the alt bracket of the rewritten construct contains raw newlines (the
repository's own tests, e.g.
`test_try_all_image_formats_normalizes_line_breaks`, assert the collapsed
form, so this is a defect of the code, not of the claim). -/
theorem c1_no_newline_collapse :
    applyMarkdownImageAlt "![old](image.png)".data "image.png".data
      "First line\nSecond line\nThird line".data =
      ("![First line\nSecond line\nThird line](image.png)".data, some "old".data) ∧
    (applyMarkdownImageAlt "![old](image.png)".data "image.png".data
      "First line\nSecond line\nThird line".data).1 ≠
      "![First line ... Second line ... Third line](image.png)".data := by
  decide

/-- C2.  The claim says backslashes and dollar signs of the replacement
text are escaped (`\` → `\\`, `$` → `\$`) before insertion into markdown
and wikilink constructs, so the spec's example should produce the escaped
alt text.  The patcher inserts the text verbatim (the lambda replacement
avoids backreference interpretation but performs no escaping), so the
output keeps the raw `$` and `\`; the repository's own tests
(`test_escape_markdown_alt_text`, `test_markdown_image_alt_with_special_chars`)
assert the escaped form. -/
theorem c2_no_markdown_escaping :
    applyMarkdownImageAlt "![](test.png)".data "test.png".data
      "A diagram (version 1.0) showing $variable\\in set \x7bA, B, C\x7d".data =
      ("![A diagram (version 1.0) showing $variable\\in set \x7bA, B, C\x7d](test.png)".data,
       none) ∧
    (applyMarkdownImageAlt "![](test.png)".data "test.png".data
      "A diagram (version 1.0) showing $variable\\in set \x7bA, B, C\x7d".data).1 ≠
      "![A diagram (version 1.0) showing \\$variable\\\\in set \x7bA, B, C\x7d](test.png)".data := by
  decide

/-- C3.  The claim says a record whose `line_number` is absent makes the
patcher replace every occurrence of the asset across the whole file.  In
`apply_captions` every usable record goes through
`int(item["line_number"])`, and `int(None)` raises `TypeError`: the run
aborts instead of entering any whole-file mode (the repository's own tests
`test_apply_caption_with_none_line_number` and
`test_apply_caption_replaces_all_instances` assert the whole-file
behaviour, so this is a defect of the code, not of the claim). -/
theorem c3_null_line_number_aborts :
    applyCaptionsFromRaw "![a](image.png)\n\n![b](image.png)".data
      [⟨"test.md".data, "image.png".data, "s".data, "m".data, "c".data,
        none, some "new alt text".data⟩] =
      .error "TypeError: int() argument must not be None" := by
  rfl

/-- C4.  The claim says text placed into an HTML `alt` attribute receives
entity escaping for `&`, `<`, `>`, `"`.  The patcher inserts the text
verbatim into the attribute, so all four characters survive unescaped (the
repository's own tests `test_escape_html_alt_text` and
`test_html_image_alt_with_special_chars` assert the escaped entities). -/
theorem c4_no_html_escaping :
    applyHtmlImageAlt "<img src=\"image.png\">".data "image.png".data
      "x < y > z & more".data =
      ("<img alt=\"x < y > z & more\" src=\"image.png\">".data, none) ∧
    (applyHtmlImageAlt "<img src=\"image.png\">".data "image.png".data
      "x < y > z & more".data).1 ≠
      "<img alt=\"x &lt; y &gt; z &amp; more\" src=\"image.png\">".data := by
  decide

/-- C6.  The claim (and the repository's own test, case `no_alt` of
`test_apply_html_image_alt`) says applying `new alt text` to
`<img src="path/to/image.png">` yields exactly
`<img alt="new alt text" src="path/to/image.png"/>` with previous value
`None`.  The code does insert `alt="…"` before `src` and reports `None`,
but it reproduces the original bare `>` ending instead of normalising to
`/>`. -/
theorem c6_no_self_closing_normalization :
    applyHtmlImageAlt "<img src=\"path/to/image.png\">".data
      "path/to/image.png".data "new alt text".data =
      ("<img alt=\"new alt text\" src=\"path/to/image.png\">".data, none) ∧
    (applyHtmlImageAlt "<img src=\"path/to/image.png\">".data
      "path/to/image.png".data "new alt text".data).1 ≠
      "<img alt=\"new alt text\" src=\"path/to/image.png\"/>".data := by
  decide

/-- C5, counterexample.  The claim quantifies over every non-empty
`final_text`, but the scanner's meaningfulness rule rejects placeholder
words: patching a bare markdown image with the non-empty text `"image"`
rewrites the construct, yet a re-scan still reports the same construct as
deficient, so scan→patch→rescan does not reach zero deficiencies. -/
theorem c5_placeholder_counterexample :
    "image".data ≠ [] ∧
    scanLineMarkdownImageDeficient "![](image.png)".data "image.png".data = true ∧
    (applyMarkdownImageAlt "![](image.png)".data "image.png".data "image".data).1 =
      "![image](image.png)".data ∧
    scanLineMarkdownImageDeficient "![image](image.png)".data "image.png".data = true := by
  decide

/-- Witness for C5: patching the deficient line `![](image.png)` with the
meaningful text `A cat` and re-scanning reports no deficiency. -/
theorem c5_meaningful_rescan_clean_witness :
    scanLineMarkdownImageDeficient
      ((applyMarkdownImageAlt "![](image.png)".data "image.png".data
        "A cat".data).1) "image.png".data = false := by
  exact c5_meaningful_rescan_clean [] "image.png".data "A cat".data []
    (by decide) (by decide) (by decide) (by decide) (by decide)

/-- C7, counterexample.  A file whose final line terminator is a bare
carriage return directly after a `\n` (content `"![old](image.png)\n\r"`)
does not end with `"\n"`, but `splitlines` gives it a final empty line, so
the rewrite joins with `"\n"` and produces content that does end with
`"\n"`: a trailing newline is added at end-of-file. -/
theorem c7_carriage_return_counterexample :
    applyCaptionContent "![old](image.png)\n\r".data "image.png".data
      "new".data 1 =
      some ("![new](image.png)\n".data, some "old".data) ∧
    endsNl "![old](image.png)\n\r".data = false ∧
    endsNl "![new](image.png)\n".data = true := by
  decide

/-- Witness for C7: a successful patch of a file with no trailing newline
(and only `\n` terminators) leaves the trailing-newline absence intact. -/
theorem c7_trailing_newline_preserved_witness :
    endsNl "![new](x.png)".data = endsNl "![old](x.png)".data := by
  exact c7_trailing_newline_preserved "![old](x.png)".data "x.png".data
    "new".data 1 "![new](x.png)".data (some "old".data) (by decide) (by decide)

/-- C8, counterexample.  Two records with the same line number survive the
stable descending sort in their original relative order, so two
permutations of the same record list can produce different final contents:
with both records targeting line 1 of `![](x.png)`, the order determines
which replacement text wins. -/
theorem c8_equal_lines_counterexample :
    [(⟨"x.png".data, "A".data, 1⟩ : CaptionTask), ⟨"x.png".data, "B".data, 1⟩].Perm
      [⟨"x.png".data, "B".data, 1⟩, ⟨"x.png".data, "A".data, 1⟩] ∧
    applyBatch "![](x.png)".data
      [⟨"x.png".data, "A".data, 1⟩, ⟨"x.png".data, "B".data, 1⟩] ≠
    applyBatch "![](x.png)".data
      [⟨"x.png".data, "B".data, 1⟩, ⟨"x.png".data, "A".data, 1⟩] := by
  constructor
  · exact List.Perm.swap _ _ _
  · decide

/-- Witness for C8: a two-record batch with distinct line numbers is
sorted descending and gives the same final content in either input
order. -/
theorem c8_descending_order_invariance_witness :
    List.Sorted (fun a b => b.lineNumber ≤ a.lineNumber)
      (sortDescending [(⟨"a.png".data, "A".data, 1⟩ : CaptionTask),
        ⟨"b.png".data, "B".data, 3⟩]) ∧
    applyBatch "![](a.png)\n\n![](b.png)".data
      [(⟨"a.png".data, "A".data, 1⟩ : CaptionTask), ⟨"b.png".data, "B".data, 3⟩] =
    applyBatch "![](a.png)\n\n![](b.png)".data
      [⟨"b.png".data, "B".data, 3⟩, ⟨"a.png".data, "A".data, 1⟩] := by
  exact ⟨c8_descending_order_invariance.1 _,
    c8_descending_order_invariance.2 "![](a.png)\n\n![](b.png)".data
      [⟨"a.png".data, "A".data, 1⟩, ⟨"b.png".data, "B".data, 3⟩]
      [⟨"b.png".data, "B".data, 3⟩, ⟨"a.png".data, "A".data, 1⟩]
      (by decide) (by decide)⟩

/-- Witness for C9: a record whose asset occurs nowhere in the one-line
file fails locally, the content is unchanged, the loop continues, and the
non-appearance facts make each recognizer fail. -/
theorem c9_no_match_local_failure_witness :
    applyCaptionContent "hello world".data "img.png".data "x".data 1 = none ∧
    runTasks "hello world".data
      [(⟨"img.png".data, "x".data, 1⟩ : CaptionTask)] =
      runTasks "hello world".data [] ∧
    (mdFind "img.png".data "hello world".data = none ∧
      wikiFind "img.png".data "hello world".data = none) ∧
    imgFind "img.png".data "hello world".data = none := by
  refine ⟨?_, ?_, ?_, ?_⟩
  · exact c9_no_match_local_failure.1 "hello world".data "img.png".data
      "x".data 1 (by decide) (by decide) (by decide)
  · exact c9_no_match_local_failure.2.1 "hello world".data
      ⟨"img.png".data, "x".data, 1⟩ [] (by decide)
  · exact c9_no_match_local_failure.2.2.1 "hello world".data "img.png".data
      (by decide)
  · exact c9_no_match_local_failure.2.2.2 "hello world".data "img.png".data
      (by decide)

/-- Witness for C10: on a line with two identical-path constructs only the
leftmost is rewritten, both for markdown images and for wikilinks. -/
theorem c10_leftmost_match_only_witness :
    applyMarkdownImageAlt "![a](x.png) ![b](x.png)".data "x.png".data
      "N".data =
      ("![N](x.png) ![b](x.png)".data, some "a".data) ∧
    applyWikilinkImageAlt "![[x.png|a]] ![[x.png]]".data "x.png".data
      "N".data =
      ("![[x.png|N]] ![[x.png]]".data, some "a".data) := by
  exact ⟨c10_leftmost_match_only.1 "a".data "b".data "x.png".data "N".data
      " ".data [] (by decide),
    c10_leftmost_match_only.2 "a".data "x.png".data "N".data
      " ".data [] (by decide)⟩


end AltTextLlm
